import Mathlib

/-!
Verification of the dotproxy DNS-over-TLS proxy core.

This file gives a shallow embedding, in Lean 4, of the parts of dotproxy
relevant to the frozen claims:

- the DNS proxy handler (package protocol): request reshape, the upstream
  write/read transaction, and the retry loop (DNSProxyHandler.Handle,
  upstreamTransact, proxyUpstream);
- the MRU timestamped queue (internal/data), including a faithful embedding
  of the Go container/heap sift-up / sift-down algorithms over the
  PriorityQueue Less order (higher priority pops first);
- the persistent connection pool (package network): acquire with staleness
  check, release via the closer callback, PersistentConn Close/Destroy;
- the availability load-balancing policy backoff state (sharding.go);
- the single-exchange UDP connection adapter;
- the TLS client connection counter.

Byte strings are modelled as List Nat (each entry one octet); network I/O
is modelled by explicit oracles (Option-valued results: none is an I/O
error), and real time by explicit Nat timestamps passed where the Go code
calls time.Now(). Durations in the sharding model are in milliseconds;
elsewhere units are abstract.
-/

namespace Dotproxy

/-! ## Byte framing (encoding/binary big-endian, as used by the handler) -/

/-- Big-endian 16-bit encoding of a length, as produced by
binary.BigEndian.PutUint16 with a uint16 conversion (wraps mod 2^16). -/
def be16enc (n : Nat) : List Nat := [n / 256 % 256, n % 256]

/-- Big-endian 16-bit decoding of a 2-byte header, as computed by
binary.BigEndian.Uint16. -/
def be16dec (hdr : List Nat) : Nat := 256 * hdr.getD 0 0 + hdr.getD 1 0

theorem be16_roundtrip (n : Nat) (h : n < 65536) : be16dec (be16enc n) = n := by
  show 256 * (n / 256 % 256) + n % 256 = n
  omega

/-! ## Protocol handler model (src protocol package, DNSProxyHandler)

The upstream connection is an oracle giving the outcome of the single
write and the two sequential reads that upstreamTransact performs:
- writeResult req: none is a write error, some n means n bytes written;
- read1: result of the 2-byte header read (bytes actually read);
- read2: result of the payload read (bytes actually read).
-/

structure UpstreamConn where
  writeResult : List Nat → Option Nat
  read1 : Option (List Nat)
  read2 : Option (List Nat)

/-- Embedding of DNSProxyHandler.upstreamTransact: write the client request,
fail on error or short write; read a 2-byte header, fail on error or short
read; decode the alleged size; read the payload, fail on error or size
mismatch; return header ++ payload. -/
def upstreamTransact (u : UpstreamConn) (clientReq : List Nat) : Option (List Nat) :=
  match u.writeResult clientReq with
  | none => none
  | some wn =>
    if wn ≠ clientReq.length then none
    else
      match u.read1 with
      | none => none
      | some hdr =>
        if hdr.length ≠ 2 then none
        else
          let respSize := be16dec hdr
          match u.read2 with
          | none => none
          | some payload =>
            if payload.length ≠ respSize then none
            else some (hdr ++ payload)

/-- Observable events of the proxy upstream loop, tagged with the attempt
index (0 is the initial attempt): the upstream write call (with its
payload), connection destruction, the retry emission, return of the
connection to the pool, and an upstream acquire error. -/
inductive Event where
  | upstreamWriteCall (attempt : Nat) (payload : List Nat)
  | destroy (attempt : Nat)
  | retryEmit (attempt : Nat)
  | closeToPool (attempt : Nat)
  | acquireError (attempt : Nat)
deriving DecidableEq

def Event.attempt : Event → Nat
  | .upstreamWriteCall a _ => a
  | .destroy a => a
  | .retryEmit a => a
  | .closeToPool a => a
  | .acquireError a => a

def Event.isDestroy : Event → Bool
  | .destroy _ => true
  | _ => false

def Event.isRetryEmit : Event → Bool
  | .retryEmit _ => true
  | _ => false

def Event.isWriteCall : Event → Bool
  | .upstreamWriteCall _ _ => true
  | _ => false

/-- Embedding of DNSProxyHandler.proxyUpstream. The n-th acquire from the
upstream client is given by the oracle acquires (none is an acquire error,
which is returned immediately without retrying). On transaction failure the
connection is destroyed; if retries remain (the Go code tests retries > 0
only in the failure branch; here the test is hoisted into the top-level
pattern on the budget, preserving the semantics) a retry is emitted and the
request is retried with the budget decremented; otherwise the error is
returned. On success the connection is closed back to the pool. -/
def proxyUpstream (acquires : Nat → Option UpstreamConn) (clientReq : List Nat) :
    Nat → Nat → Option (List Nat) × List Event
  | n, 0 =>
    match acquires n with
    | none => (none, [Event.acquireError n])
    | some u =>
      match upstreamTransact u clientReq with
      | none => (none, [Event.upstreamWriteCall n clientReq, Event.destroy n])
      | some resp =>
        (some resp, [Event.upstreamWriteCall n clientReq, Event.closeToPool n])
  | n, r + 1 =>
    match acquires n with
    | none => (none, [Event.acquireError n])
    | some u =>
      match upstreamTransact u clientReq with
      | none =>
        ((proxyUpstream acquires clientReq (n + 1) r).1,
          Event.upstreamWriteCall n clientReq :: Event.destroy n ::
            Event.retryEmit n :: (proxyUpstream acquires clientReq (n + 1) r).2)
      | some resp =>
        (some resp, [Event.upstreamWriteCall n clientReq, Event.closeToPool n])

/-- Transport tag recorded in the request context. -/
inductive Transport where
  | udp
  | tcp
deriving DecidableEq

/-- Oracle for the client connection: the result of the single read (the
bytes read into the 1024-byte buffer) and of the single write (bytes
written, none on error). -/
structure ClientConn where
  readResult : Option (List Nat)
  writeResult : List Nat → Option Nat

/-- Embedding of the retry-budget normalization in DNSProxyHandler.Handle:
a configured budget that is not positive becomes 16. -/
def effectiveMaxRetries (r : Int) : Int := if r ≤ 0 then 16 else r

/-- Embedding of DNSProxyHandler.Handle: read the client request; on UDP,
prepend the two-octet big-endian length header; run proxyUpstream with the
normalized retry budget; on UDP, strip the first two octets of the upstream
response; write the result back to the client (failing on error or short
write). Returns the bytes successfully written back to the client (none on
any error) together with the upstream event log. -/
def handle (t : Transport) (client : ClientConn) (acquires : Nat → Option UpstreamConn)
    (maxUpstreamRetries : Int) : Option (List Nat) × List Event :=
  match client.readResult with
  | none => (none, [])
  | some clientReq0 =>
    let clientReq := if t = Transport.udp
      then be16enc clientReq0.length ++ clientReq0
      else clientReq0
    let maxRetries := effectiveMaxRetries maxUpstreamRetries
    match proxyUpstream acquires clientReq 0 maxRetries.toNat with
    | (none, evs) => (none, evs)
    | (some resp, evs) =>
      let shaped := if t = Transport.udp then resp.drop 2 else resp
      match client.writeResult shaped with
      | none => (none, evs)
      | some wn => if wn ≠ shaped.length then (none, evs) else (some shaped, evs)

/-! ## Case equations for proxyUpstream -/

theorem proxyUpstream_acquire_none {acquires : Nat → Option UpstreamConn} {req : List Nat}
    {n retries : Nat} (h : acquires n = none) :
    proxyUpstream acquires req n retries = (none, [Event.acquireError n]) := by
  cases retries <;> (conv_lhs => unfold proxyUpstream) <;> simp only [h]

theorem proxyUpstream_success {acquires : Nat → Option UpstreamConn} {req : List Nat}
    {n retries : Nat} {u : UpstreamConn} {resp : List Nat}
    (h : acquires n = some u) (ht : upstreamTransact u req = some resp) :
    proxyUpstream acquires req n retries =
      (some resp, [Event.upstreamWriteCall n req, Event.closeToPool n]) := by
  cases retries <;> (conv_lhs => unfold proxyUpstream) <;> simp only [h, ht]

theorem proxyUpstream_fail_zero {acquires : Nat → Option UpstreamConn} {req : List Nat}
    {n : Nat} {u : UpstreamConn}
    (h : acquires n = some u) (ht : upstreamTransact u req = none) :
    proxyUpstream acquires req n 0 =
      (none, [Event.upstreamWriteCall n req, Event.destroy n]) := by
  conv_lhs => unfold proxyUpstream
  simp only [h, ht]

theorem proxyUpstream_fail_succ {acquires : Nat → Option UpstreamConn} {req : List Nat}
    {n r : Nat} {u : UpstreamConn}
    (h : acquires n = some u) (ht : upstreamTransact u req = none) :
    proxyUpstream acquires req n (r + 1) =
      ((proxyUpstream acquires req (n + 1) r).1,
        Event.upstreamWriteCall n req :: Event.destroy n :: Event.retryEmit n ::
          (proxyUpstream acquires req (n + 1) r).2) := by
  conv_lhs => unfold proxyUpstream
  simp only [h, ht]

/-- Attempt indices recorded by proxyUpstream never go below the starting
attempt index. -/
theorem proxyUpstream_attempt_ge (acquires : Nat → Option UpstreamConn) (req : List Nat) :
    ∀ retries n e, e ∈ (proxyUpstream acquires req n retries).2 → n ≤ e.attempt := by
  intro retries
  induction retries with
  | zero =>
    intro n e he
    cases ha : acquires n with
    | none =>
      rw [proxyUpstream_acquire_none ha] at he
      simp at he
      subst he
      exact Nat.le_refl n
    | some u =>
      cases ht : upstreamTransact u req with
      | none =>
        rw [proxyUpstream_fail_zero ha ht] at he
        simp at he
        rcases he with h | h <;> subst h <;> exact Nat.le_refl n
      | some resp =>
        rw [proxyUpstream_success ha ht] at he
        simp at he
        rcases he with h | h <;> subst h <;> exact Nat.le_refl n
  | succ r ih =>
    intro n e he
    cases ha : acquires n with
    | none =>
      rw [proxyUpstream_acquire_none ha] at he
      simp at he
      subst he
      exact Nat.le_refl n
    | some u =>
      cases ht : upstreamTransact u req with
      | none =>
        rw [proxyUpstream_fail_succ ha ht] at he
        simp at he
        rcases he with h | h | h | h
        · subst h; exact Nat.le_refl n
        · subst h; exact Nat.le_refl n
        · subst h; exact Nat.le_refl n
        · exact Nat.le_of_succ_le (ih (n + 1) e h)
      | some resp =>
        rw [proxyUpstream_success ha ht] at he
        simp at he
        rcases he with h | h <;> subst h <;> exact Nat.le_refl n

/-- C2: in every upstream proxy transaction, a failed transaction (write
error or short write, header-read error or short read, payload-read error
or short read) destroys the borrowed pooled connection and never returns it
to the pool, while a successful transaction returns the connection via the
close-to-pool path and never destroys it. Short reads follow exactly the
same failure path as I/O errors: both are the cases in which
upstreamTransact returns none. -/
theorem upstream_failure_destroys_success_returns
    (acquires : Nat → Option UpstreamConn) (req : List Nat) (n retries : Nat)
    (u : UpstreamConn) (hacq : acquires n = some u) :
    (upstreamTransact u req = none ↔
      (u.writeResult req = none ∨
       (∃ wn, u.writeResult req = some wn ∧ wn ≠ req.length) ∨
       u.read1 = none ∨
       (∃ hdr, u.read1 = some hdr ∧ hdr.length ≠ 2) ∨
       u.read2 = none ∨
       (∃ hdr payload, u.read1 = some hdr ∧ u.read2 = some payload ∧
         payload.length ≠ be16dec hdr))) ∧
    (upstreamTransact u req = none →
      Event.destroy n ∈ (proxyUpstream acquires req n retries).2 ∧
      Event.closeToPool n ∉ (proxyUpstream acquires req n retries).2) ∧
    (∀ resp, upstreamTransact u req = some resp →
      Event.closeToPool n ∈ (proxyUpstream acquires req n retries).2 ∧
      Event.destroy n ∉ (proxyUpstream acquires req n retries).2) := by
  refine ⟨?_, ?_, ?_⟩
  · -- Characterization of transaction failure
    constructor
    · intro hnone
      unfold upstreamTransact at hnone
      cases hw : u.writeResult req with
      | none => exact Or.inl rfl
      | some wn =>
        rw [hw] at hnone
        by_cases hwn : wn = req.length
        · simp only [hwn, ne_eq, not_true_eq_false, if_false, ite_false] at hnone
          cases h1 : u.read1 with
          | none => exact Or.inr (Or.inr (Or.inl rfl))
          | some hdr =>
            rw [h1] at hnone
            by_cases hh : hdr.length = 2
            · simp only [hh, ne_eq, not_true_eq_false, if_false, ite_false] at hnone
              cases h2 : u.read2 with
              | none => exact Or.inr (Or.inr (Or.inr (Or.inr (Or.inl rfl))))
              | some payload =>
                rw [h2] at hnone
                by_cases hp : payload.length = be16dec hdr
                · simp [hp] at hnone
                · exact Or.inr (Or.inr (Or.inr (Or.inr (Or.inr
                    ⟨hdr, payload, rfl, rfl, hp⟩))))
            · exact Or.inr (Or.inr (Or.inr (Or.inl ⟨hdr, rfl, hh⟩)))
        · exact Or.inr (Or.inl ⟨wn, rfl, hwn⟩)
    · intro hcause
      unfold upstreamTransact
      rcases hcause with hw | ⟨wn, hw, hwn⟩ | h1 | ⟨hdr, h1, hh⟩ | h2 |
        ⟨hdr, payload, h1, h2, hp⟩
      · rw [hw]
      · rw [hw]; simp [hwn]
      · cases hw : u.writeResult req with
        | none => rfl
        | some wn =>
          by_cases hwn : wn = req.length
          · simp [hwn, h1]
          · simp [hwn]
      · cases hw : u.writeResult req with
        | none => rfl
        | some wn =>
          by_cases hwn : wn = req.length
          · simp [hwn, h1, hh]
          · simp [hwn]
      · cases hw : u.writeResult req with
        | none => rfl
        | some wn =>
          by_cases hwn : wn = req.length
          · cases h1 : u.read1 with
            | none => simp [hwn]
            | some hdr =>
              by_cases hh : hdr.length = 2
              · simp [hwn, hh, h2]
              · simp [hwn, hh]
          · simp [hwn]
      · cases hw : u.writeResult req with
        | none => rfl
        | some wn =>
          by_cases hwn : wn = req.length
          · by_cases hh : hdr.length = 2
            · simp [hwn, h1, hh, h2, hp]
            · simp [hwn, h1, hh]
          · simp [hwn]
  · -- Failure: destroyed, not returned to the pool
    intro ht
    cases retries with
    | zero =>
      rw [proxyUpstream_fail_zero hacq ht]
      simp
    | succ r =>
      rw [proxyUpstream_fail_succ hacq ht]
      refine ⟨by simp, ?_⟩
      intro hmem
      simp at hmem
      have := proxyUpstream_attempt_ge acquires req r (n + 1) _ hmem
      simp [Event.attempt] at this
  · -- Success: returned to the pool, not destroyed
    intro resp ht
    rw [proxyUpstream_success hacq ht]
    simp

/-- C2 witness: a connection whose write always errors is destroyed by the
retry loop. -/
theorem upstream_failure_destroys_success_returns_witness :
    Event.destroy 0 ∈
      (proxyUpstream (fun _ => some ⟨fun _ => none, none, none⟩) [1] 0 3).2 := by
  have h := upstream_failure_destroys_success_returns
    (fun _ => some ⟨fun _ => none, none, none⟩) [1] 0 3
    ⟨fun _ => none, none, none⟩ rfl
  exact (h.2.1 rfl).1

/-! ## C3: retry budget exhaustion -/

/-- Exhaustion lemma: when every acquire succeeds and every transaction
fails, proxyUpstream with budget retries makes retries + 1 attempts, each
with a write call and a destroy, emits retries retry events, and returns an
error. -/
theorem proxyUpstream_all_fail (acquires : Nat → Option UpstreamConn) (req : List Nat)
    (hfail : ∀ k u, acquires k = some u → upstreamTransact u req = none)
    (hsome : ∀ k, (acquires k).isSome) :
    ∀ retries n,
      (proxyUpstream acquires req n retries).1 = none ∧
      (proxyUpstream acquires req n retries).2.countP Event.isDestroy = retries + 1 ∧
      (proxyUpstream acquires req n retries).2.countP Event.isRetryEmit = retries ∧
      (proxyUpstream acquires req n retries).2.countP Event.isWriteCall = retries + 1 := by
  intro retries
  induction retries with
  | zero =>
    intro n
    cases ha : acquires n with
    | none => have := hsome n; rw [ha] at this; simp at this
    | some u =>
      rw [proxyUpstream_fail_zero ha (hfail n u ha)]
      simp [List.countP, List.countP.go, Event.isDestroy, Event.isRetryEmit,
        Event.isWriteCall]
  | succ r ih =>
    intro n
    cases ha : acquires n with
    | none => have := hsome n; rw [ha] at this; simp at this
    | some u =>
      rw [proxyUpstream_fail_succ ha (hfail n u ha)]
      have hr := ih (n + 1)
      refine ⟨hr.1, ?_, ?_, ?_⟩ <;>
        · simp [List.countP_cons, Event.isDestroy, Event.isRetryEmit,
            Event.isWriteCall, hr.2.1, hr.2.2.1, hr.2.2.2]
          try omega

/-- C3: a non-positive configured retry budget is normalized to 16; with
effective budget R, if every upstream transaction fails with an I/O
failure (acquires themselves succeeding), the handler makes exactly R + 1
transaction attempts, destroys the connection after each failed attempt,
emits exactly R retry observations, and surfaces an error for the
request. -/
theorem retry_budget_exhaustion (t : Transport) (client : ClientConn)
    (acquires : Nat → Option UpstreamConn) (r : Int) (M : List Nat)
    (hread : client.readResult = some M)
    (hfail : ∀ k u, acquires k = some u → ∀ req, upstreamTransact u req = none)
    (hsome : ∀ k, (acquires k).isSome) :
    effectiveMaxRetries r = (if r ≤ 0 then 16 else r) ∧
    (handle t client acquires r).1 = none ∧
    (handle t client acquires r).2.countP Event.isWriteCall =
      (effectiveMaxRetries r).toNat + 1 ∧
    (handle t client acquires r).2.countP Event.isDestroy =
      (effectiveMaxRetries r).toNat + 1 ∧
    (handle t client acquires r).2.countP Event.isRetryEmit =
      (effectiveMaxRetries r).toNat := by
  have hall := proxyUpstream_all_fail acquires
    (if t = Transport.udp then be16enc M.length ++ M else M)
    (fun k u hk => hfail k u hk _) hsome (effectiveMaxRetries r).toNat 0
  have hh : handle t client acquires r =
      proxyUpstream acquires (if t = Transport.udp then be16enc M.length ++ M else M) 0
        (effectiveMaxRetries r).toNat := by
    unfold handle
    rw [hread]
    dsimp only
    split
    · rename_i evs heq
      exact heq.symm
    · rename_i resp evs heq
      rw [heq] at hall
      simp at hall
  refine ⟨rfl, ?_, ?_, ?_, ?_⟩ <;> rw [hh]
  · exact hall.1
  · exact hall.2.2.2
  · exact hall.2.1
  · exact hall.2.2.1

/-- C3 witness: with a configured budget of -5 (normalized to 16) and an
upstream whose writes always fail, the handler destroys 17 connections. -/
theorem retry_budget_exhaustion_witness :
    (handle Transport.udp ⟨some [0], fun _ => some 0⟩
      (fun _ => some ⟨fun _ => none, none, none⟩) (-5)).2.countP Event.isDestroy
      = 17 := by
  have h := retry_budget_exhaustion Transport.udp ⟨some [0], fun _ => some 0⟩
    (fun _ => some ⟨fun _ => none, none, none⟩) (-5) [0] rfl
    (fun k u hk req => by
      injection hk with hk
      subst hk
      rfl)
    (fun k => rfl)
  have h16 : ((effectiveMaxRetries (-5)).toNat : Nat) = 16 := by decide
  rw [h.2.2.2.1, h16]

/-! ## C1: transport reshape round-trip -/

/-- C1: with a client message M of length at most 1024 and an upstream that
accepts the write and answers with a two-octet big-endian length prefix
followed by payload Mp, a UDP request puts exactly be16(|M|) ++ M on the
upstream wire and writes exactly Mp (prefix stripped) back to the client,
while a TCP request forwards M verbatim and returns the prefixed response
verbatim. -/
theorem reshape_roundtrip (client : ClientConn) (acquires : Nat → Option UpstreamConn)
    (r : Int) (M Mp : List Nat) (u : UpstreamConn)
    (hread : client.readResult = some M)
    (hlen : M.length ≤ 1024)
    (hacq : acquires 0 = some u)
    (hw : ∀ p, u.writeResult p = some p.length)
    (hr1 : u.read1 = some (be16enc Mp.length))
    (hr2 : u.read2 = some Mp)
    (hplen : Mp.length < 65536)
    (hcw : ∀ p, client.writeResult p = some p.length) :
    handle Transport.udp client acquires r =
      (some Mp,
        [Event.upstreamWriteCall 0 (be16enc M.length ++ M), Event.closeToPool 0]) ∧
    handle Transport.tcp client acquires r =
      (some (be16enc Mp.length ++ Mp),
        [Event.upstreamWriteCall 0 M, Event.closeToPool 0]) := by
  have htr : ∀ req, upstreamTransact u req = some (be16enc Mp.length ++ Mp) := by
    intro req
    have hdec : be16dec (be16enc Mp.length) = Mp.length := be16_roundtrip _ hplen
    have hlen2 : (be16enc Mp.length).length = 2 := by simp [be16enc]
    unfold upstreamTransact
    rw [hw req, hr1, hr2]
    simp [hlen2, hdec]
  constructor
  · have hpu := @proxyUpstream_success acquires (be16enc M.length ++ M) 0
      (effectiveMaxRetries r).toNat u (be16enc Mp.length ++ Mp) hacq
      (htr (be16enc M.length ++ M))
    unfold handle
    rw [hread]
    dsimp only
    simp only [reduceIte]
    rw [hpu]
    dsimp only
    have hdrop : (be16enc Mp.length ++ Mp).drop 2 = Mp := by simp [be16enc]
    rw [hdrop, hcw Mp]
    simp
  · have hpu := @proxyUpstream_success acquires M 0
      (effectiveMaxRetries r).toNat u (be16enc Mp.length ++ Mp) hacq (htr M)
    unfold handle
    rw [hread]
    have hne : ¬(Transport.tcp = Transport.udp) := by decide
    dsimp only
    simp only [if_neg hne]
    rw [hpu]
    dsimp only
    rw [hcw (be16enc Mp.length ++ Mp)]
    simp

/-- C1 witness: a concrete 3-byte request and 2-byte response payload. -/
theorem reshape_roundtrip_witness :
    handle Transport.udp
      ⟨some [7, 8, 9], fun p => some p.length⟩
      (fun _ => some ⟨fun p => some p.length, some (be16enc 2), some [4, 5]⟩) 3 =
      (some [4, 5],
        [Event.upstreamWriteCall 0 (be16enc 3 ++ [7, 8, 9]), Event.closeToPool 0]) ∧
    handle Transport.tcp
      ⟨some [7, 8, 9], fun p => some p.length⟩
      (fun _ => some ⟨fun p => some p.length, some (be16enc 2), some [4, 5]⟩) 3 =
      (some (be16enc 2 ++ [4, 5]),
        [Event.upstreamWriteCall 0 [7, 8, 9], Event.closeToPool 0]) :=
  reshape_roundtrip
    ⟨some [7, 8, 9], fun p => some p.length⟩
    (fun _ => some ⟨fun p => some p.length, some (be16enc 2), some [4, 5]⟩)
    3 [7, 8, 9] [4, 5]
    ⟨fun p => some p.length, some (be16enc 2), some [4, 5]⟩
    rfl (by decide) rfl (fun p => rfl) rfl rfl (by decide) (fun p => rfl)

/-! ## Priority queue (internal/data/priority.go) and container/heap

Items are (value, priority) pairs; values are connection identifiers. The
Go PriorityQueue.Less makes higher priority sort first (a max-heap on
priority). The up and down functions are the sift-up and sift-down loops
of the Go standard library container/heap, specialized to this Less. -/

/-- An entry of the priority queue: value and priority (the Unix timestamp
tagged by MRUQueue.Push). The Item index field of the Go code is tracking
metadata for heap.Fix only and does not influence Push/Pop. -/
abbrev Item := Nat × Nat

/-- Priority stored at index i (0 when out of range, which never occurs in
actual heap operation). -/
def prio (l : List Item) (i : Nat) : Nat := (l.getD i (0, 0)).2

/-- Embedding of PriorityQueue.Swap. -/
def listSwap (l : List Item) (i j : Nat) : List Item :=
  (l.set i (l.getD j (0, 0))).set j (l.getD i (0, 0))

theorem length_listSwap (l : List Item) (i j : Nat) :
    (listSwap l i j).length = l.length := by
  simp [listSwap]

theorem listSwap_getD_fst (l : List Item) {i j : Nat}
    (hi : i < l.length) (hj : j < l.length) :
    (listSwap l i j).getD i (0, 0) = l.getD j (0, 0) := by
  unfold listSwap
  by_cases hij : i = j
  · subst hij
    rw [List.getD_eq_getElem?_getD, List.getElem?_set_eq_of_lt _ (by simpa)]
    rfl
  · rw [List.getD_eq_getElem?_getD, List.getElem?_set_ne (by omega),
      List.getElem?_set_eq_of_lt _ hi]
    rfl

theorem listSwap_getD_snd (l : List Item) {i j : Nat}
    (hi : i < l.length) (hj : j < l.length) :
    (listSwap l i j).getD j (0, 0) = l.getD i (0, 0) := by
  unfold listSwap
  rw [List.getD_eq_getElem?_getD, List.getElem?_set_eq_of_lt _ (by simpa)]
  rfl

theorem listSwap_getD_other (l : List Item) {i j k : Nat}
    (hki : k ≠ i) (hkj : k ≠ j) :
    (listSwap l i j).getD k (0, 0) = l.getD k (0, 0) := by
  unfold listSwap
  rw [List.getD_eq_getElem?_getD, List.getElem?_set_ne (by omega),
    List.getElem?_set_ne (by omega), ← List.getD_eq_getElem?_getD]

theorem prio_listSwap_fst (l : List Item) {i j : Nat}
    (hi : i < l.length) (hj : j < l.length) :
    prio (listSwap l i j) i = prio l j :=
  congrArg Prod.snd (listSwap_getD_fst l hi hj)

theorem prio_listSwap_snd (l : List Item) {i j : Nat}
    (hi : i < l.length) (hj : j < l.length) :
    prio (listSwap l i j) j = prio l i :=
  congrArg Prod.snd (listSwap_getD_snd l hi hj)

theorem prio_listSwap_other (l : List Item) {i j k : Nat}
    (hki : k ≠ i) (hkj : k ≠ j) :
    prio (listSwap l i j) k = prio l k :=
  congrArg Prod.snd (listSwap_getD_other l hki hkj)

theorem cons_set_perm (a : Item) : ∀ (t : List Item) (k : Nat), k < t.length →
    (t.getD k (0, 0) :: t.set k a).Perm (a :: t) := by
  intro t
  induction t with
  | nil => intro k hk; simp at hk
  | cons b t2 ih =>
    intro k hk
    cases k with
    | zero =>
      simp only [List.getD_cons_zero, List.set_cons_zero]
      exact List.Perm.swap a b t2
    | succ k2 =>
      simp only [List.getD_cons_succ, List.set_cons_succ]
      have h2 : k2 < t2.length := by simpa using hk
      exact ((List.Perm.swap b _ _).trans ((ih k2 h2).cons b)).trans
        (List.Perm.swap a b t2)

theorem listSwap_perm : ∀ (l : List Item) (i j : Nat), i < l.length → j < l.length →
    (listSwap l i j).Perm l := by
  intro l
  induction l with
  | nil => intro i j hi _; simp at hi
  | cons a t ih =>
    intro i j hi hj
    unfold listSwap
    cases i with
    | zero =>
      cases j with
      | zero =>
        simp only [List.getD_cons_zero, List.set_cons_zero]
        exact List.Perm.refl _
      | succ j2 =>
        have hj2 : j2 < t.length := by simpa using hj
        simp only [List.getD_cons_succ, List.getD_cons_zero, List.set_cons_zero,
          List.set_cons_succ]
        exact cons_set_perm a t j2 hj2
    | succ i2 =>
      cases j with
      | zero =>
        have hi2 : i2 < t.length := by simpa using hi
        simp only [List.getD_cons_succ, List.getD_cons_zero, List.set_cons_zero,
          List.set_cons_succ]
        exact cons_set_perm a t i2 hi2
      | succ j2 =>
        simp only [List.getD_cons_succ, List.set_cons_succ]
        exact (ih i2 j2 (by simpa using hi) (by simpa using hj)).cons a

/-- Index of the child preferred by the sift-down loop of container/heap:
the right child when it exists and compares Less (higher priority) than the
left child, otherwise the left child. -/
def childIdx (l : List Item) (i n : Nat) : Nat :=
  if 2 * i + 2 < n ∧ prio l (2 * i + 1) < prio l (2 * i + 2) then 2 * i + 2 else 2 * i + 1

theorem childIdx_bounds (l : List Item) (i n : Nat) (h : 2 * i + 1 < n) :
    i < childIdx l i n ∧ childIdx l i n < n := by
  unfold childIdx
  split <;> omega

theorem childIdx_parent (l : List Item) (i n : Nat) : (childIdx l i n - 1) / 2 = i := by
  unfold childIdx
  split <;> omega

theorem childIdx_max (l : List Item) (i n : Nat) (h : 2 * i + 1 < n) :
    ∀ s, 0 < s → s < n → (s - 1) / 2 = i → prio l s ≤ prio l (childIdx l i n) := by
  intro s hs0 hsn hsp
  have hs : s = 2 * i + 1 ∨ s = 2 * i + 2 := by omega
  unfold childIdx
  split
  · rename_i hc
    rcases hs with h1 | h1 <;> subst h1
    · exact le_of_lt hc.2
    · exact le_refl _
  · rename_i hc
    rcases hs with h1 | h1 <;> subst h1
    · exact le_refl _
    · have hnl : ¬ prio l (2 * i + 1) < prio l (2 * i + 2) := fun hp => hc ⟨hsn, hp⟩
      exact not_lt.mp hnl

/-- The sift-up loop of Go container/heap (function up), specialized to the
PriorityQueue Less order: while the current node compares Less than its
parent (has strictly higher priority), swap it with the parent. The Go exit
test i == j holds exactly when j = 0. -/
def up (l : List Item) (j : Nat) : List Item :=
  if _h : j = 0 then l
  else if prio l ((j - 1) / 2) < prio l j then up (listSwap l ((j - 1) / 2) j) ((j - 1) / 2)
  else l
termination_by j
decreasing_by omega

/-- The sift-down loop of Go container/heap (function down) bounded by n:
while the current node has a child below n whose priority is strictly
higher, swap with the Less-most child. -/
def down (l : List Item) (i n : Nat) : List Item :=
  if h : 2 * i + 1 < n then
    if prio l i < prio l (childIdx l i n) then
      down (listSwap l i (childIdx l i n)) (childIdx l i n) n
    else l
  else l
termination_by n - i
decreasing_by
  have := childIdx_bounds l i n h
  omega

/-- heap.Push: append the new item and sift it up from the last index. -/
def heapPush (l : List Item) (x : Item) : List Item := up (l ++ [x]) l.length

/-- heap.Pop: swap the root with the last element, sift the new root down
within the shortened bound, and remove and return the last element. -/
def heapPop (l : List Item) : Item × List Item :=
  ((down (listSwap l 0 (l.length - 1)) 0 (l.length - 1)).getD (l.length - 1) (0, 0),
   (down (listSwap l 0 (l.length - 1)) 0 (l.length - 1)).dropLast)

/-- Max-heap order on the first n positions: every non-root node below n is
at most its parent in priority. -/
def heapInvTo (l : List Item) (n : Nat) : Prop :=
  ∀ k, 0 < k → k < n → prio l k ≤ prio l ((k - 1) / 2)

/-- Max-heap order on the whole backing list. -/
def heapInv (l : List Item) : Prop := heapInvTo l l.length

theorem heapInvTo_le_root (l : List Item) (n : Nat) (h : heapInvTo l n) :
    ∀ k, k < n → prio l k ≤ prio l 0 := by
  intro k
  induction k using Nat.strong_induction_on with
  | _ k ih =>
    intro hk
    rcases Nat.eq_zero_or_pos k with h0 | hpos
    · subst h0
      exact le_refl _
    · exact le_trans (h k hpos hk) (ih ((k - 1) / 2) (by omega) (by omega))

/-- State of the sift-up loop: every parent edge holds except possibly the
one out of j, and the children of j fit below the parent of j. -/
structure UpInv (l : List Item) (j : Nat) : Prop where
  edges : ∀ k, 0 < k → k < l.length → k ≠ j → prio l k ≤ prio l ((k - 1) / 2)
  below : ∀ k, 0 < k → k < l.length → (k - 1) / 2 = j → prio l k ≤ prio l ((j - 1) / 2)

theorem upInv_step (l : List Item) (j : Nat) (hj0 : j ≠ 0) (hjlen : j < l.length)
    (hinv : UpInv l j) (hlt : prio l ((j - 1) / 2) < prio l j) :
    UpInv (listSwap l ((j - 1) / 2) j) ((j - 1) / 2) := by
  have hij : (j - 1) / 2 < j := by omega
  have hilen : (j - 1) / 2 < l.length := lt_trans hij hjlen
  constructor
  · intro k hk0 hklen hki
    rw [length_listSwap] at hklen
    by_cases hkj : k = j
    · subst hkj
      rw [prio_listSwap_snd l hilen hjlen, prio_listSwap_fst l hilen hjlen]
      exact le_of_lt hlt
    · by_cases hpk : (k - 1) / 2 = j
      · have hknotI : k ≠ (j - 1) / 2 := by omega
        rw [hpk, prio_listSwap_other l hknotI hkj, prio_listSwap_snd l hilen hjlen]
        exact hinv.below k hk0 hklen hpk
      · by_cases hpki : (k - 1) / 2 = (j - 1) / 2
        · rw [hpki, prio_listSwap_other l hki hkj, prio_listSwap_fst l hilen hjlen]
          have h3 := hinv.edges k hk0 hklen hkj
          rw [hpki] at h3
          exact le_trans h3 (le_of_lt hlt)
        · rw [prio_listSwap_other l hki hkj, prio_listSwap_other l hpki hpk]
          exact hinv.edges k hk0 hklen hkj
  · intro k hk0 hklen hpk
    rw [length_listSwap] at hklen
    have hkey : prio l ((j - 1) / 2) ≤
        prio (listSwap l ((j - 1) / 2) j) (((j - 1) / 2 - 1) / 2) := by
      by_cases hI : (j - 1) / 2 = 0
      · have hilen0 : (0 : Nat) < l.length := by omega
        have hlt0 : prio l 0 < prio l j := by rwa [hI] at hlt
        rw [hI]
        show prio l 0 ≤ prio (listSwap l 0 j) ((0 - 1) / 2)
        have h02 : ((0 : Nat) - 1) / 2 = 0 := rfl
        rw [h02, prio_listSwap_fst l hilen0 hjlen]
        exact le_of_lt hlt0
      · have hgp1 : ((j - 1) / 2 - 1) / 2 ≠ (j - 1) / 2 := by omega
        have hgp2 : ((j - 1) / 2 - 1) / 2 ≠ j := by omega
        rw [prio_listSwap_other l hgp1 hgp2]
        exact hinv.edges ((j - 1) / 2) (Nat.pos_of_ne_zero hI) hilen (by omega)
    by_cases hkj : k = j
    · subst hkj
      rw [prio_listSwap_snd l hilen hjlen]
      exact hkey
    · have hknotI : k ≠ (j - 1) / 2 := by omega
      rw [prio_listSwap_other l hknotI hkj]
      have h3 := hinv.edges k hk0 hklen hkj
      rw [hpk] at h3
      exact le_trans h3 hkey

theorem up_correct : ∀ (j : Nat) (l : List Item), j < l.length → UpInv l j →
    heapInv (up l j) ∧ (up l j).Perm l ∧ (up l j).length = l.length := by
  intro j
  induction j using Nat.strong_induction_on with
  | _ j ih =>
    intro l hjlen hinv
    by_cases hj0 : j = 0
    · subst hj0
      have hup : up l 0 = l := by
        conv_lhs => rw [up]
        rw [dif_pos rfl]
      rw [hup]
      refine ⟨?_, List.Perm.refl l, rfl⟩
      intro k hk0 hklen
      exact hinv.edges k hk0 hklen (by omega)
    · by_cases hlt : prio l ((j - 1) / 2) < prio l j
      · have hstep := upInv_step l j hj0 hjlen hinv hlt
        have hup : up l j = up (listSwap l ((j - 1) / 2) j) ((j - 1) / 2) := by
          conv_lhs => rw [up]
          rw [dif_neg hj0, if_pos hlt]
        have hij : (j - 1) / 2 < j := by omega
        have hilen : (j - 1) / 2 < l.length := lt_trans hij hjlen
        have hilen2 : (j - 1) / 2 < (listSwap l ((j - 1) / 2) j).length := by
          rw [length_listSwap]
          exact hilen
        have hrec := ih ((j - 1) / 2) hij (listSwap l ((j - 1) / 2) j) hilen2 hstep
        rw [hup]
        refine ⟨hrec.1, hrec.2.1.trans (listSwap_perm l _ _ hilen hjlen), ?_⟩
        rw [hrec.2.2, length_listSwap]
      · have hup : up l j = l := by
          conv_lhs => rw [up]
          rw [dif_neg hj0, if_neg hlt]
        rw [hup]
        refine ⟨?_, List.Perm.refl l, rfl⟩
        intro k hk0 hklen
        by_cases hkj : k = j
        · subst hkj
          exact not_lt.mp hlt
        · exact hinv.edges k hk0 hklen hkj

/-- State of the sift-down loop bounded by n: every parent edge below n
holds except possibly those into i, and the children of i fit below the
parent of i. -/
structure DownInv (l : List Item) (i n : Nat) : Prop where
  edges : ∀ k, 0 < k → k < n → (k - 1) / 2 ≠ i → prio l k ≤ prio l ((k - 1) / 2)
  below : 0 < i → ∀ k, 0 < k → k < n → (k - 1) / 2 = i → prio l k ≤ prio l ((i - 1) / 2)

theorem downInv_step (l : List Item) (i n : Nat) (hn : n ≤ l.length)
    (h1 : 2 * i + 1 < n) (hinv : DownInv l i n)
    (hlt : prio l i < prio l (childIdx l i n)) :
    DownInv (listSwap l i (childIdx l i n)) (childIdx l i n) n := by
  have hb := childIdx_bounds l i n h1
  have hjp := childIdx_parent l i n
  have hilen : i < l.length := by omega
  have hjlen : childIdx l i n < l.length := by omega
  constructor
  · intro k hk0 hkn hkp
    by_cases hkj : k = childIdx l i n
    · subst hkj
      rw [hjp, prio_listSwap_snd l hilen hjlen, prio_listSwap_fst l hilen hjlen]
      exact le_of_lt hlt
    · by_cases hki : k = i
      · subst hki
        have hgp1 : (k - 1) / 2 ≠ k := by omega
        have hgp2 : (k - 1) / 2 ≠ childIdx l k n := by omega
        rw [prio_listSwap_fst l hilen hjlen, prio_listSwap_other l hgp1 hgp2]
        exact hinv.below hk0 (childIdx l k n) (by omega) hb.2 hjp
      · by_cases hkpi : (k - 1) / 2 = i
        · rw [hkpi, prio_listSwap_other l hki hkj, prio_listSwap_fst l hilen hjlen]
          exact childIdx_max l i n h1 k hk0 hkn hkpi
        · rw [prio_listSwap_other l hki hkj, prio_listSwap_other l hkpi hkp]
          exact hinv.edges k hk0 hkn hkpi
  · intro _ k hk0 hkn hkp
    have hknotj : k ≠ childIdx l i n := by omega
    have hknoti : k ≠ i := by omega
    rw [hjp, prio_listSwap_other l hknoti hknotj, prio_listSwap_fst l hilen hjlen]
    have h3 := hinv.edges k hk0 hkn (by omega)
    rwa [hkp] at h3

theorem down_correct (n : Nat) : ∀ (m : Nat) (l : List Item) (i : Nat), n - i ≤ m →
    n ≤ l.length → DownInv l i n →
    heapInvTo (down l i n) n ∧ (down l i n).Perm l ∧
    (∀ k, n ≤ k → (down l i n).getD k (0, 0) = l.getD k (0, 0)) := by
  intro m
  induction m with
  | zero =>
    intro l i hm hn hinv
    have h1 : ¬ (2 * i + 1 < n) := by omega
    have hd : down l i n = l := by
      conv_lhs => rw [down]
      rw [dif_neg h1]
    rw [hd]
    refine ⟨?_, List.Perm.refl l, fun k _ => rfl⟩
    intro k hk0 hkn
    exact hinv.edges k hk0 hkn (by omega)
  | succ m ih =>
    intro l i hm hn hinv
    by_cases h1 : 2 * i + 1 < n
    · by_cases hlt : prio l i < prio l (childIdx l i n)
      · have hd : down l i n = down (listSwap l i (childIdx l i n)) (childIdx l i n) n := by
          conv_lhs => rw [down]
          rw [dif_pos h1, if_pos hlt]
        have hb := childIdx_bounds l i n h1
        have hrec := ih (listSwap l i (childIdx l i n)) (childIdx l i n)
          (by omega) (by rw [length_listSwap]; exact hn)
          (downInv_step l i n hn h1 hinv hlt)
        rw [hd]
        refine ⟨hrec.1, hrec.2.1.trans (listSwap_perm l _ _ (by omega) (by omega)), ?_⟩
        intro k hk
        rw [hrec.2.2 k hk, listSwap_getD_other l (by omega) (by omega)]
      · have hd : down l i n = l := by
          conv_lhs => rw [down]
          rw [dif_pos h1, if_neg hlt]
        rw [hd]
        refine ⟨?_, List.Perm.refl l, fun k _ => rfl⟩
        intro k hk0 hkn
        by_cases hkpi : (k - 1) / 2 = i
        · rw [hkpi]
          exact le_trans (childIdx_max l i n h1 k hk0 hkn hkpi) (not_lt.mp hlt)
        · exact hinv.edges k hk0 hkn hkpi
    · have hd : down l i n = l := by
        conv_lhs => rw [down]
        rw [dif_neg h1]
      rw [hd]
      refine ⟨?_, List.Perm.refl l, fun k _ => rfl⟩
      intro k hk0 hkn
      exact hinv.edges k hk0 hkn (by omega)

theorem heapPush_spec (l : List Item) (x : Item) (hinv : heapInv l) :
    heapInv (heapPush l x) ∧ (heapPush l x).Perm (x :: l) ∧
    (heapPush l x).length = l.length + 1 := by
  have hlen : (l ++ [x]).length = l.length + 1 := by simp
  have happ : ∀ k, k < l.length → prio (l ++ [x]) k = prio l k := by
    intro k hk
    unfold prio
    rw [List.getD_eq_getElem?_getD, List.getD_eq_getElem?_getD, List.getElem?_append]
    simp [hk]
  have hinv0 : UpInv (l ++ [x]) l.length := by
    constructor
    · intro k hk0 hklen hkj
      rw [hlen] at hklen
      have hk : k < l.length := by omega
      rw [happ k hk, happ _ (by omega)]
      exact hinv k hk0 hk
    · intro k hk0 hklen hpk
      rw [hlen] at hklen
      omega
  have hcor := up_correct l.length (l ++ [x]) (by omega) hinv0
  unfold heapPush
  exact ⟨hcor.1, hcor.2.1.trans (List.perm_append_singleton x l),
    by rw [hcor.2.2, hlen]⟩

theorem heapPop_spec (l : List Item) (hne : l ≠ []) (hinv : heapInv l) :
    (heapPop l).1 ∈ l ∧ l.Perm ((heapPop l).1 :: (heapPop l).2) ∧
    heapInv (heapPop l).2 ∧ (heapPop l).2.length = l.length - 1 ∧
    (∀ x ∈ l, x.2 ≤ (heapPop l).1.2) := by
  have hm : 0 < l.length := List.length_pos.mpr hne
  have hinv_sw : DownInv (listSwap l 0 (l.length - 1)) 0 (l.length - 1) := by
    constructor
    · intro k hk0 hkn hkp
      rw [prio_listSwap_other l (by omega) (by omega),
        prio_listSwap_other l (by omega) (by omega)]
      exact hinv k hk0 (by omega)
    · intro h0
      exact absurd h0 (by omega)
  have hd := down_correct (l.length - 1) (l.length - 1) (listSwap l 0 (l.length - 1)) 0
    (by omega) (by rw [length_listSwap]; omega) hinv_sw
  obtain ⟨hd_inv, hd_perm, hd_keep⟩ := hd
  have hdlen : (down (listSwap l 0 (l.length - 1)) 0 (l.length - 1)).length = l.length := by
    rw [hd_perm.length_eq, length_listSwap]
  have hfst : (heapPop l).1 = l.getD 0 (0, 0) := by
    show (down (listSwap l 0 (l.length - 1)) 0 (l.length - 1)).getD (l.length - 1) (0, 0) =
      l.getD 0 (0, 0)
    rw [hd_keep _ (le_refl _)]
    exact listSwap_getD_snd l hm (by omega)
  have hsnd : (heapPop l).2 = (down (listSwap l 0 (l.length - 1)) 0 (l.length - 1)).dropLast :=
    rfl
  have hd_eq : down (listSwap l 0 (l.length - 1)) 0 (l.length - 1) =
      (heapPop l).2 ++ [(heapPop l).1] := by
    rw [hsnd]
    have hne2 : down (listSwap l 0 (l.length - 1)) 0 (l.length - 1) ≠ [] := by
      intro hcon
      rw [hcon] at hdlen
      simp at hdlen
      omega
    conv_lhs => rw [← List.dropLast_append_getLast hne2]
    congr 1
    have hfst2 : (heapPop l).1 =
        (down (listSwap l 0 (l.length - 1)) 0 (l.length - 1)).getD (l.length - 1) (0, 0) :=
      rfl
    rw [hfst2, List.getD_eq_getElem?_getD,
      List.getElem?_eq_getElem (by rw [hdlen]; omega), List.getLast_eq_getElem]
    simp [hdlen]
  have hperm : l.Perm ((heapPop l).1 :: (heapPop l).2) := by
    have h1 : l.Perm (down (listSwap l 0 (l.length - 1)) 0 (l.length - 1)) :=
      (hd_perm.trans (listSwap_perm l 0 (l.length - 1) hm (by omega))).symm
    rw [hd_eq] at h1
    exact h1.trans (List.perm_append_singleton _ _)
  refine ⟨?_, hperm, ?_, ?_, ?_⟩
  · rw [hfst]
    cases l with
    | nil => exact absurd rfl hne
    | cons a t => simp [List.getD_cons_zero]
  · -- heap order on the remainder
    intro k hk0 hklen
    have hlen2 : (heapPop l).2.length = l.length - 1 := by
      rw [hsnd, List.length_dropLast, hdlen]
    rw [hlen2] at hklen
    have hp1 : prio (heapPop l).2 k =
        prio (down (listSwap l 0 (l.length - 1)) 0 (l.length - 1)) k := by
      unfold prio
      rw [hsnd, List.getD_eq_getElem?_getD, List.getD_eq_getElem?_getD,
        List.getElem?_dropLast, hdlen]
      simp [hklen]
    have hp2 : prio (heapPop l).2 ((k - 1) / 2) =
        prio (down (listSwap l 0 (l.length - 1)) 0 (l.length - 1)) ((k - 1) / 2) := by
      unfold prio
      rw [hsnd, List.getD_eq_getElem?_getD, List.getD_eq_getElem?_getD,
        List.getElem?_dropLast, hdlen]
      have : (k - 1) / 2 < l.length - 1 := by omega
      simp [this]
    rw [hp1, hp2]
    exact hd_inv k hk0 hklen
  · rw [hsnd, List.length_dropLast, hdlen]
  · intro x hx
    rw [hfst]
    obtain ⟨k, hk, hkx⟩ := List.mem_iff_getElem.mp hx
    have hroot : (l.getD 0 (0, 0)).2 = prio l 0 := rfl
    have hxk : x.2 = prio l k := by
      unfold prio
      rw [List.getD_eq_getElem?_getD, List.getElem?_eq_getElem hk]
      simp [hkx]
    rw [hroot, hxk]
    exact heapInvTo_le_root l l.length hinv k hk

/-! ## MRUQueue (internal/data, mru_queue) -/

/-- Embedding of the MRUQueue: the heap-ordered backing store and the
configured capacity (any non-positive capacity disables the limit). The Go
mutex serializes access and is not modelled. -/
structure MRUQueue where
  store : List Item
  capacity : Int

/-- Embedding of NewMRUQueue: an empty heap with the given capacity
(heap.Init on an empty store is the empty store). -/
def NewMRUQueue (capacity : Int) : MRUQueue := ⟨[], capacity⟩

/-- Embedding of MRUQueue.Push: refuse when a positive capacity is reached,
otherwise heap-push the value tagged with the insertion timestamp now
(time.Now().Unix() in the Go code). Returns the new queue and the accepted
flag. -/
def MRUQueue.push (m : MRUQueue) (value : Nat) (now : Nat) : MRUQueue × Bool :=
  if 0 < m.capacity ∧ (m.store.length : Int) = m.capacity then (m, false)
  else (⟨heapPush m.store (value, now), m.capacity⟩, true)

/-- Embedding of MRUQueue.Pop: none on an empty queue (ok=false), otherwise
heap-pop the most recently used item, returning its value and the timestamp
at which it was inserted. -/
def MRUQueue.pop (m : MRUQueue) : MRUQueue × Option (Nat × Nat) :=
  if m.store.length = 0 then (m, none)
  else (⟨(heapPop m.store).2, m.capacity⟩, some (heapPop m.store).1)

/-- Embedding of MRUQueue.Size. -/
def MRUQueue.size (m : MRUQueue) : Nat := m.store.length

/-- Embedding of MRUQueue.Empty. -/
def MRUQueue.mruEmpty (m : MRUQueue) : Bool := m.store.length == 0

/-- Queue states reachable from a freshly constructed queue by any sequence
of push and pop operations (with arbitrary insertion timestamps). -/
inductive Reachable : MRUQueue → Prop
  | init (c : Int) : Reachable (NewMRUQueue c)
  | push (m : MRUQueue) (v t : Nat) : Reachable m → Reachable (m.push v t).1
  | pop (m : MRUQueue) : Reachable m → Reachable (m.pop).1

theorem reachable_inv (m : MRUQueue) (h : Reachable m) :
    heapInv m.store ∧ (0 < m.capacity → (m.store.length : Int) ≤ m.capacity) := by
  induction h with
  | init c =>
    refine ⟨?_, fun hcp => ?_⟩
    · intro k hk0 hklen
      simp [NewMRUQueue] at hklen
    · simp only [NewMRUQueue] at hcp ⊢
      simp
      omega
  | push m v t hm ih =>
    unfold MRUQueue.push
    split
    · exact ih
    · rename_i hfull
      have hp := heapPush_spec m.store (v, t) ih.1
      refine ⟨hp.1, ?_⟩
      intro hcap
      simp only [hp.2.2]
      have := ih.2 hcap
      rcases Decidable.em ((m.store.length : Int) = m.capacity) with he | he
      · exact absurd ⟨hcap, he⟩ hfull
      · push_cast
        omega
  | pop m hm ih =>
    unfold MRUQueue.pop
    split
    · exact ih
    · rename_i hne
      have hne2 : m.store ≠ [] := by
        intro hcon
        rw [hcon] at hne
        simp at hne
      have hp := heapPop_spec m.store hne2 ih.1
      refine ⟨hp.2.2.1, ?_⟩
      intro hcap
      simp only [hp.2.2.2.1]
      have := ih.2 hcap
      push_cast
      omega

/-- C6: on every reachable queue state, pop on an empty queue reports
ok=false; pop on a non-empty queue returns an entry of the queue whose
timestamp is the latest among all stored entries, together with that
timestamp, and removes exactly that entry; with capacity C > 0, push
rejects exactly when the queue already holds C entries, and the size never
exceeds C (before or after the push). -/
theorem mru_queue_contract (m : MRUQueue) (hreach : Reachable m) (v t : Nat) :
    (m.store = [] → (m.pop).2 = none) ∧
    (m.store ≠ [] → ∃ value ts, (m.pop).2 = some (value, ts) ∧
      (value, ts) ∈ m.store ∧ (∀ x ∈ m.store, x.2 ≤ ts) ∧
      m.store.Perm ((value, ts) :: (m.pop).1.store)) ∧
    (0 < m.capacity →
      (((m.push v t).2 = false) ↔ (m.store.length : Int) = m.capacity) ∧
      (m.store.length : Int) ≤ m.capacity ∧
      (((m.push v t).1.store.length : Int) ≤ m.capacity)) := by
  obtain ⟨hinv, hcap⟩ := reachable_inv m hreach
  refine ⟨?_, ?_, ?_⟩
  · intro hempty
    unfold MRUQueue.pop
    simp [hempty]
  · intro hne
    have hp := heapPop_spec m.store hne hinv
    refine ⟨(heapPop m.store).1.1, (heapPop m.store).1.2, ?_, ?_, ?_, ?_⟩
    · unfold MRUQueue.pop
      have hlen : ¬ m.store.length = 0 := by
        simpa [List.length_eq_zero] using hne
      simp [hlen]
    · exact hp.1
    · exact hp.2.2.2.2
    · unfold MRUQueue.pop
      have hlen : ¬ m.store.length = 0 := by
        simpa [List.length_eq_zero] using hne
      simp only [hlen, if_neg, ite_false]
      exact hp.2.1
  · intro hc
    have hsize := hcap hc
    refine ⟨?_, hsize, ?_⟩
    · constructor
      · intro hrej
        unfold MRUQueue.push at hrej
        by_cases hfull : (m.store.length : Int) = m.capacity
        · exact hfull
        · simp [hc, hfull] at hrej
      · intro hfull
        unfold MRUQueue.push
        simp [hc, hfull]
    · unfold MRUQueue.push
      by_cases hfull : (m.store.length : Int) = m.capacity
      · simp [hc, hfull]
        try omega
      · simp [hc, hfull]
        have hp := heapPush_spec m.store (v, t) hinv
        rw [hp.2.2]
        push_cast
        omega

/-- C6 witness: a concrete reachable queue holding entries with timestamps
1 and 5 under capacity 2. -/
theorem mru_queue_contract_witness :
    let q := ((((NewMRUQueue 2).push 10 1).1).push 20 5).1
    (q.store = [] → (q.pop).2 = none) ∧
    (q.store ≠ [] → ∃ value ts, (q.pop).2 = some (value, ts) ∧
      (value, ts) ∈ q.store ∧ (∀ x ∈ q.store, x.2 ≤ ts) ∧
      q.store.Perm ((value, ts) :: (q.pop).1.store)) ∧
    (0 < q.capacity →
      (((q.push 30 9).2 = false) ↔ (q.store.length : Int) = q.capacity) ∧
      (q.store.length : Int) ≤ q.capacity ∧
      (((q.push 30 9).1.store.length : Int) ≤ q.capacity)) :=
  mru_queue_contract _
    (Reachable.push _ 20 5 (Reachable.push _ 10 1 (Reachable.init 2))) 30 9

/-! ## Persistent connection pool (package network, PersistentConnPool)

Connections are identified by Nat ids. The dialer result for an acquire is
passed as an oracle (none is a dial error). The possibly-stale age check
uses the explicit clock now against the popped entry's timestamp. -/

structure Pool where
  conns : MRUQueue
  staleTimeout : Int

/-- Result of a pool acquire: a cached connection from the MRU queue, or a
freshly dialed one. -/
inductive AcquireRes where
  | cached (conn : Nat)
  | fresh (conn : Nat)
deriving DecidableEq

/-- Auxiliary length fact: sift-up never changes the length of the backing
list, without any heap-order assumption. -/
theorem up_length : ∀ (j : Nat) (l : List Item), (up l j).length = l.length := by
  intro j
  induction j using Nat.strong_induction_on with
  | _ j ih =>
    intro l
    by_cases hj0 : j = 0
    · subst hj0
      conv_lhs => rw [up]
      rw [dif_pos rfl]
    · by_cases hlt : prio l ((j - 1) / 2) < prio l j
      · conv_lhs => rw [up]
        rw [dif_neg hj0, if_pos hlt, ih ((j - 1) / 2) (by omega), length_listSwap]
      · conv_lhs => rw [up]
        rw [dif_neg hj0, if_neg hlt]

/-- Embedding of PersistentConnPool.Conn: pop from the MRU queue; if a
cached connection is present and the stale timeout is disabled or the entry
age is below it, wrap and return the cached connection; otherwise (stale,
or empty pop) dial a fresh connection, propagating a dial error. The third
component records whether a stale cached connection was closed. -/
def Pool.conn (p : Pool) (now : Nat) (dial : Option Nat) :
    Pool × Except Unit AcquireRes × Bool :=
  match hpop : (p.conns.pop).2 with
  | some (c, ts) =>
    if p.staleTimeout ≤ 0 ∨ ((now : Int) - (ts : Int) < p.staleTimeout) then
      (⟨(p.conns.pop).1, p.staleTimeout⟩, Except.ok (AcquireRes.cached c), false)
    else
      match dial with
      | none => (⟨(p.conns.pop).1, p.staleTimeout⟩, Except.error (), true)
      | some d => (⟨(p.conns.pop).1, p.staleTimeout⟩, Except.ok (AcquireRes.fresh d), true)
  | none =>
    match dial with
    | none => (⟨(p.conns.pop).1, p.staleTimeout⟩, Except.error (), false)
    | some d => (⟨(p.conns.pop).1, p.staleTimeout⟩, Except.ok (AcquireRes.fresh d), false)

/-- Embedding of PersistentConnPool.put: push the connection back into the
MRU queue; when the push is rejected (pool at capacity), the connection is
closed instead. Returns the pool and whether the connection was closed. -/
def Pool.put (p : Pool) (c : Nat) (now : Nat) : Pool × Bool :=
  if (p.conns.push c now).2 then (⟨(p.conns.push c now).1, p.staleTimeout⟩, false)
  else (p, true)

/-- C8: pool acquire behavior. When the MRU pop yields an entry and the
stale timeout is disabled or the entry age is below it, that cached
connection is returned (and not closed). When the popped entry's age
exceeds the (positive) stale timeout, the cached connection is never
returned: it is closed, and the acquire dials fresh, yielding the fresh
connection or the dial error. On an empty pop with a failing dialer, the
dial error is returned. -/
theorem pool_acquire_staleness (p : Pool) (now : Nat) (dial : Option Nat) (c ts : Nat) :
    ((p.conns.pop).2 = some (c, ts) →
      ((p.staleTimeout ≤ 0 ∨ ((now : Int) - (ts : Int) < p.staleTimeout)) →
        (p.conn now dial).2.1 = Except.ok (AcquireRes.cached c) ∧
        (p.conn now dial).2.2 = false) ∧
      (0 < p.staleTimeout → p.staleTimeout < (now : Int) - (ts : Int) →
        (∀ x, (p.conn now dial).2.1 ≠ Except.ok (AcquireRes.cached x)) ∧
        (p.conn now dial).2.2 = true ∧
        (dial = none → (p.conn now dial).2.1 = Except.error ()) ∧
        (∀ d, dial = some d → (p.conn now dial).2.1 = Except.ok (AcquireRes.fresh d)))) ∧
    ((p.conns.pop).2 = none → dial = none → (p.conn now dial).2.1 = Except.error ()) := by
  constructor
  · intro hpop
    constructor
    · intro hlive
      unfold Pool.conn
      split
      · rename_i c2 ts2 hpop2
        rw [hpop] at hpop2
        injection hpop2 with h2
        injection h2 with hc hts
        subst hc
        subst hts
        rw [if_pos hlive]
        exact ⟨rfl, rfl⟩
      · rename_i hpop2
        rw [hpop] at hpop2
        exact absurd hpop2 (by simp)
    · intro hpos hstale
      have hnot : ¬ (p.staleTimeout ≤ 0 ∨ ((now : Int) - (ts : Int) < p.staleTimeout)) := by
        push_neg
        omega
      unfold Pool.conn
      split
      · rename_i c2 ts2 hpop2
        rw [hpop] at hpop2
        injection hpop2 with h2
        injection h2 with hc hts
        subst hc
        subst hts
        rw [if_neg hnot]
        cases dial with
        | none => exact ⟨fun x => by simp, rfl, fun _ => rfl, fun d hd => by simp at hd⟩
        | some d0 =>
          refine ⟨fun x => by simp, rfl, fun hc => by simp at hc, fun d hd => ?_⟩
          injection hd with hd
          subst hd
          rfl
      · rename_i hpop2
        rw [hpop] at hpop2
        exact absurd hpop2 (by simp)
  · intro hpop hdial
    subst hdial
    unfold Pool.conn
    split
    · rename_i c2 ts2 hpop2
      rw [hpop] at hpop2
      exact absurd hpop2 (by simp)
    · rfl

/-- C8 witness: a pool holding one cached connection with timestamp 10 and
stale timeout 100, probed at a live age and at a stale age. -/
theorem pool_acquire_staleness_witness :
    ((((Pool.mk ⟨[(1, 10)], 4⟩ 100).conns.pop).2 = some (1, 10) →
      (((Pool.mk ⟨[(1, 10)], 4⟩ 100).staleTimeout ≤ 0 ∨
          ((15 : Int) - (10 : Int) < (Pool.mk ⟨[(1, 10)], 4⟩ 100).staleTimeout)) →
        ((Pool.mk ⟨[(1, 10)], 4⟩ 100).conn 15 (some 99)).2.1 =
          Except.ok (AcquireRes.cached 1) ∧
        ((Pool.mk ⟨[(1, 10)], 4⟩ 100).conn 15 (some 99)).2.2 = false) ∧
      (0 < (Pool.mk ⟨[(1, 10)], 4⟩ 100).staleTimeout →
        (Pool.mk ⟨[(1, 10)], 4⟩ 100).staleTimeout < (15 : Int) - (10 : Int) →
        (∀ x, ((Pool.mk ⟨[(1, 10)], 4⟩ 100).conn 15 (some 99)).2.1 ≠
          Except.ok (AcquireRes.cached x)) ∧
        ((Pool.mk ⟨[(1, 10)], 4⟩ 100).conn 15 (some 99)).2.2 = true ∧
        ((some 99 : Option Nat) = none →
          ((Pool.mk ⟨[(1, 10)], 4⟩ 100).conn 15 (some 99)).2.1 = Except.error ()) ∧
        (∀ d, (some 99 : Option Nat) = some d →
          ((Pool.mk ⟨[(1, 10)], 4⟩ 100).conn 15 (some 99)).2.1 =
            Except.ok (AcquireRes.fresh d)))) ∧
    ((((Pool.mk ⟨[(1, 10)], 4⟩ 100).conns.pop).2 = none → (some 99 : Option Nat) = none →
      ((Pool.mk ⟨[(1, 10)], 4⟩ 100).conn 15 (some 99)).2.1 = Except.error ()))) ∧
    (((Pool.mk ⟨[(1, 10)], 4⟩ 100).conns.pop).2 = some (1, 10)) :=
  ⟨pool_acquire_staleness (Pool.mk ⟨[(1, 10)], 4⟩ 100) 15 (some 99) 1 10,
   by simp [MRUQueue.pop, heapPop, down, listSwap]⟩

/-! ## C5: pool with capacity 0

NewMRUQueue documents that any non-positive capacity disables the capacity
limit, and MRUQueue.Push only rejects when the capacity is positive. A pool
constructed with capacity 0 therefore caches released connections without
bound, and an acquire can return a previously released connection. -/

/-- C5 counterexample: with capacity 0 (and stale timeout 0), releasing
connection 1 into an empty pool does not close it (the push is accepted),
and the next acquire returns cached connection 1 instead of dialing the
available fresh connection 99. This falsifies the claim that a capacity-0
pool never returns a pooled connection. -/
theorem capacity_zero_counterexample :
    ((Pool.mk (NewMRUQueue 0) 0).put 1 5).2 = false ∧
    ((((Pool.mk (NewMRUQueue 0) 0).put 1 5).1).conn 6 (some 99)).2.1 =
      Except.ok (AcquireRes.cached 1) := by
  constructor
  · simp [Pool.put, MRUQueue.push, NewMRUQueue]
  · have hput : ((Pool.mk (NewMRUQueue 0) 0).put 1 5).1 =
        Pool.mk ⟨[(1, 5)], 0⟩ 0 := by
      simp [Pool.put, MRUQueue.push, NewMRUQueue, heapPush, up]
    rw [hput]
    simp [Pool.conn, MRUQueue.pop, heapPop, down, listSwap]

/-- C5 amended: for a pool whose queue capacity is not positive (capacity 0
included), the capacity limit is disabled: every push is accepted, so a
release never closes the connection but caches it, and with the stale
timeout disabled a subsequent acquire returns a cached (previously
released) connection rather than dialing fresh. -/
theorem capacity_nonpositive_pool_caches (p : Pool) (c now : Nat)
    (hcap : p.conns.capacity ≤ 0) :
    ((p.conns.push c now).2 = true) ∧
    ((p.put c now).2 = false) ∧
    (p.staleTimeout ≤ 0 → ∀ now2 dial, ∃ v,
      ((p.put c now).1.conn now2 dial).2.1 = Except.ok (AcquireRes.cached v)) := by
  have hpush : (p.conns.push c now).2 = true := by
    unfold MRUQueue.push
    rw [if_neg (by omega)]
  refine ⟨hpush, ?_, ?_⟩
  · unfold Pool.put
    rw [if_pos hpush]
  · intro hstale now2 dial
    have hput1 : (p.put c now).1 = ⟨(p.conns.push c now).1, p.staleTimeout⟩ := by
      unfold Pool.put
      rw [if_pos hpush]
    have hlen : (p.conns.push c now).1.store.length = p.conns.store.length + 1 := by
      unfold MRUQueue.push
      rw [if_neg (by omega)]
      show (heapPush p.conns.store (c, now)).length = _
      unfold heapPush
      rw [up_length]
      simp
    have hpop : ((p.put c now).1.conns.pop).2 =
        some (heapPop (p.conns.push c now).1.store).1 := by
      rw [hput1]
      show ((MRUQueue.pop (p.conns.push c now).1)).2 = _
      unfold MRUQueue.pop
      rw [if_neg (by omega)]
    refine ⟨(heapPop (p.conns.push c now).1.store).1.1, ?_⟩
    have hst : (p.put c now).1.staleTimeout ≤ 0 := by
      rw [hput1]
      exact hstale
    unfold Pool.conn
    split
    · rename_i c2 ts2 hpop2
      rw [hpop] at hpop2
      rw [if_pos (Or.inl hst)]
      injection hpop2 with h2
      simp [h2]
    · rename_i hpop2
      rw [hpop] at hpop2
      exact absurd hpop2 (by simp)

/-- C5 amended-claim witness: the concrete capacity-0 pool of the
counterexample. -/
theorem capacity_nonpositive_pool_caches_witness :
    (((Pool.mk (NewMRUQueue 0) 0).conns.push 1 5).2 = true) ∧
    (((Pool.mk (NewMRUQueue 0) 0).put 1 5).2 = false) ∧
    (((Pool.mk (NewMRUQueue 0) 0).staleTimeout ≤ 0 → ∀ now2 dial, ∃ v,
      (((Pool.mk (NewMRUQueue 0) 0).put 1 5).1.conn now2 dial).2.1 =
        Except.ok (AcquireRes.cached v))) :=
  capacity_nonpositive_pool_caches (Pool.mk (NewMRUQueue 0) 0) 1 5 (by decide)

/-! ## C4: PersistentConn Close and Destroy

The simulation state tracks the destroyed flag of one PersistentConn
wrapper, the owning pool, and how many times the underlying stream has been
closed. closerCall is the callback installed by PersistentConnPool.Conn's
closerFactory: on destroyed=true it emits the close observation and closes
the underlying stream; otherwise it returns the connection to the pool via
put (put closes the connection only when the queue rejects the push). -/

structure PConnSim where
  destroyed : Bool
  pool : Pool
  underlyingCloses : Nat

/-- Embedding of the closure produced by closerFactory in
PersistentConnPool.Conn. -/
def closerCall (id now : Nat) (destroyed : Bool) (s : PConnSim) : PConnSim :=
  if destroyed then { s with underlyingCloses := s.underlyingCloses + 1 }
  else
    { s with
      pool := (s.pool.put id now).1
      underlyingCloses := s.underlyingCloses + (if (s.pool.put id now).2 then 1 else 0) }

/-- Embedding of PersistentConn.Close: it unconditionally invokes the
closer, passing the current destroyed flag. -/
def pcClose (id now : Nat) (s : PConnSim) : PConnSim := closerCall id now s.destroyed s

/-- Embedding of PersistentConn.Destroy: mark the wrapper destroyed, then
Close. -/
def pcDestroy (id now : Nat) (s : PConnSim) : PConnSim :=
  pcClose id now { s with destroyed := true }

/-- C4 evaluation at the failing inputs: starting from a non-destroyed
wrapper over an empty pool of capacity 8, a second Close after a first
Close reinserts connection 1 into the pool a second time (the queue then
holds two entries for the same connection), and a Close after a Destroy
closes the underlying stream a second time. Both contradict the documented
idempotence of Close (the wrapper is not terminal after close or destroy in
the code). -/
theorem close_after_close_or_destroy_eval :
    (pcClose 1 11 (pcClose 1 10
      (PConnSim.mk false (Pool.mk (NewMRUQueue 8) 0) 0))).pool.conns.store =
      [(1, 11), (1, 10)] ∧
    (pcClose 2 11 (pcDestroy 2 10
      (PConnSim.mk false (Pool.mk (NewMRUQueue 8) 0) 0))).underlyingCloses = 2 := by
  constructor
  · have h1 : pcClose 1 10 (PConnSim.mk false (Pool.mk (NewMRUQueue 8) 0) 0) =
        PConnSim.mk false (Pool.mk ⟨[(1, 10)], 8⟩ 0) 0 := by
      simp [pcClose, closerCall, Pool.put, MRUQueue.push, NewMRUQueue, heapPush, up]
    rw [h1]
    have h2 : heapPush [((1 : Nat), (10 : Nat))] (1, 11) = [(1, 11), (1, 10)] := by
      unfold heapPush
      conv_lhs => rw [up]
      norm_num [prio, listSwap]
      conv_lhs => rw [up]
      norm_num
    simp [pcClose, closerCall, Pool.put, MRUQueue.push, h2]
  · simp [pcClose, pcDestroy, closerCall]

/-! ## Availability load-balancing policy (internal/network/sharding.go)

Times and durations are in milliseconds: failedClientExpiry is 30 s =
30000 ms, the initial backoff is 100 ms. A client's backoff state is its
lastError instant (none models the Go zero time.Time) and its current
errorExpiry duration. -/

abbrev BackoffState := Option Nat × Nat

/-- Embedding of the failure branch of AvailabilityShardedClient.Conn: if
the client has never errored, or its last error is more than 30 s in the
past, the expiry restarts at 100 ms; otherwise the current expiry doubles.
The last error instant becomes now. -/
def failStep (st : BackoffState) (now : Nat) : BackoffState :=
  match st.1 with
  | none => (some now, 100)
  | some t => if now - t > 30000 then (some now, 100) else (some now, 2 * st.2)

/-- Backoff state after the first k failures at times ts 0, ..., ts (k-1),
from the initial state (zero time, zero duration) installed by
NewAvailabilityShardedClient. -/
def failSeq (ts : Nat → Nat) : Nat → BackoffState
  | 0 => (none, 0)
  | k + 1 => failStep (failSeq ts k) (ts k)

/-- Embedding of the eligibility test in selectAvailable: eligible when the
client never errored or its failure lifetime has expired. -/
def eligible (st : BackoffState) (now : Nat) : Bool :=
  match st.1 with
  | none => true
  | some t => now - t > st.2

/-- Embedding of the filtering loop of selectAvailable. -/
def eligibleClients (clients : List BackoffState) (now : Nat) : List BackoffState :=
  clients.filter (fun st => eligible st now)

/-- Embedding of selectAvailable: fail with the no-live-clients error when
no client is eligible, otherwise return a (randomly) selected eligible
client; the random draw is an explicit parameter. -/
def selectAvailable (clients : List BackoffState) (now : Nat) (rand : Nat) :
    Except Unit BackoffState :=
  if eligibleClients clients now = [] then Except.error ()
  else Except.ok ((eligibleClients clients now).getD
    (rand % (eligibleClients clients now).length) (none, 0))

theorem failSeq_backoff (ts : Nat → Nat) :
    ∀ k, 0 < k → (∀ i, i + 1 < k → ts (i + 1) - ts i ≤ 30000) →
    failSeq ts k = (some (ts (k - 1)), 100 * 2 ^ (k - 1)) := by
  intro k
  induction k with
  | zero =>
    intro h _
    exact absurd h (lt_irrefl 0)
  | succ k0 ih =>
    intro _ hrapid
    cases k0 with
    | zero =>
      show failStep (failSeq ts 0) (ts 0) = _
      simp [failSeq, failStep]
    | succ k1 =>
      have ihh := ih (by omega) (fun i hi => hrapid i (by omega))
      show failStep (failSeq ts (k1 + 1)) (ts (k1 + 1)) = _
      rw [ihh]
      unfold failStep
      simp only [Nat.add_sub_cancel]
      have hcond : ¬ (ts (k1 + 1) - ts k1 > 30000) := by
        have := hrapid k1 (by omega)
        omega
      rw [if_neg hcond]
      have hpow : 2 * (100 * 2 ^ k1) = 100 * 2 ^ (k1 + 1) := by
        rw [pow_succ]
        ring
      rw [hpow]

/-- C7: a client that fails k consecutive times under the availability
policy, each failure within 30 s of the previous one, ends with
errorExpiry = 100 ms x 2^(k-1) and lastError = the time of the k-th
failure; any client whose elapsed time since lastError is at most its
errorExpiry is ineligible and thus excluded from the selection set; and
when the eligible set is empty the connection acquisition fails with the
no-live-clients error. -/
theorem availability_backoff_exclusion (ts : Nat → Nat) (k : Nat) (hk : 0 < k)
    (hrapid : ∀ i, i + 1 < k → ts (i + 1) - ts i ≤ 30000) :
    failSeq ts k = (some (ts (k - 1)), 100 * 2 ^ (k - 1)) ∧
    (∀ (st : BackoffState) (t now : Nat), st.1 = some t → now - t ≤ st.2 →
      eligible st now = false ∧ ∀ clients, st ∉ eligibleClients clients now) ∧
    (∀ (clients : List BackoffState) (now rand : Nat),
      eligibleClients clients now = [] →
      selectAvailable clients now rand = Except.error ()) := by
  refine ⟨failSeq_backoff ts k hk hrapid, ?_, ?_⟩
  · intro st t now hst helapsed
    have helig : eligible st now = false := by
      unfold eligible
      rw [hst]
      simp only [decide_eq_false_iff_not]
      omega
    refine ⟨helig, ?_⟩
    intro clients hmem
    unfold eligibleClients at hmem
    rw [List.mem_filter] at hmem
    rw [helig] at hmem
    exact absurd hmem.2 (by simp)
  · intro clients now rand hempty
    unfold selectAvailable
    rw [if_pos hempty]

/-- C7 witness: three failures at t = 0 ms, 50 ms, 100 ms give backoff
state (lastError 100 ms, expiry 400 ms). -/
theorem availability_backoff_exclusion_witness :
    failSeq (fun i => 50 * i) 3 = (some ((fun i => 50 * i) (3 - 1)), 100 * 2 ^ (3 - 1)) ∧
    (∀ (st : BackoffState) (t now : Nat), st.1 = some t → now - t ≤ st.2 →
      eligible st now = false ∧ ∀ clients, st ∉ eligibleClients clients now) ∧
    (∀ (clients : List BackoffState) (now rand : Nat),
      eligibleClients clients now = [] →
      selectAvailable clients now rand = Except.error ()) :=
  availability_backoff_exclusion (fun i => 50 * i) 3 (by decide)
    (fun i hi => by
      show 50 * (i + 1) - 50 * i ≤ 30000
      omega)

/-! ## Single-exchange UDP adapter (UDPConn) -/

/-- Oracle for one UDPConn exchange: whether setting the read and write
deadlines succeeds, the datagram delivered by ReadFrom (payload bytes and
sender address; none is a read error, after which the Go assignment leaves
the remote nil), and the outcome of WriteTo for a payload and destination
(bytes sent; none is a write error). -/
structure UDPOracle where
  setReadDeadlineOk : Bool
  setWriteDeadlineOk : Bool
  readFrom : Option (List Nat × Nat)
  writeTo : List Nat → Nat → Option Nat

/-- Embedding of UDPConn.Read: fail immediately (without touching the
socket) when a remote is already associated; otherwise set the read
deadline when a positive timeout is configured, then ReadFrom, recording
the sender as the new remote. Returns the new remote, the read result, and
whether ReadFrom was invoked. -/
def udpRead (remote : Option Nat) (readTimeout : Int) (o : UDPOracle) :
    Option Nat × Option (List Nat) × Bool :=
  if remote ≠ none then (remote, none, false)
  else if 0 < readTimeout ∧ ¬ o.setReadDeadlineOk then (remote, none, false)
  else
    match o.readFrom with
    | none => (none, none, true)
    | some (data, addr) => (some addr, some data, true)

/-- Embedding of UDPConn.Write: fail immediately (without touching the
socket) when no remote is associated; otherwise set the write deadline when
a positive timeout is configured, then WriteTo the recorded peer. Returns
the write result (bytes sent and the destination address used) and whether
WriteTo was invoked. -/
def udpWrite (remote : Option Nat) (writeTimeout : Int) (o : UDPOracle) (buf : List Nat) :
    Option (Nat × Nat) × Bool :=
  match remote with
  | none => (none, false)
  | some addr =>
    if 0 < writeTimeout ∧ ¬ o.setWriteDeadlineOk then (none, false)
    else
      match o.writeTo buf addr with
      | none => (none, true)
      | some n => (some (n, addr), true)

/-- C9: the first read on an unbound single-exchange UDP adapter receives
the datagram and binds the wrapper to the sender; any read on an
already-bound adapter errors without reading; any write before a
successful read errors without sending; and a write after a successful
read sends to the recorded peer address. -/
theorem udp_single_exchange (o : UDPOracle) (rt wt : Int) (buf data : List Nat)
    (peer : Nat) :
    ((rt ≤ 0 ∨ o.setReadDeadlineOk = true) → o.readFrom = some (data, peer) →
      udpRead none rt o = (some peer, some data, true)) ∧
    (∀ a, udpRead (some a) rt o = (some a, none, false)) ∧
    (udpWrite none wt o buf = (none, false)) ∧
    ((wt ≤ 0 ∨ o.setWriteDeadlineOk = true) → ∀ n, o.writeTo buf peer = some n →
      udpWrite (some peer) wt o buf = (some (n, peer), true)) := by
  refine ⟨?_, ?_, ?_, ?_⟩
  · intro hdl hrf
    unfold udpRead
    rw [if_neg (by simp)]
    rw [if_neg (by rcases hdl with h | h <;> simp [h] <;> omega)]
    rw [hrf]
  · intro a
    unfold udpRead
    rw [if_pos (by simp)]
  · rfl
  · intro hdl n hwt
    unfold udpWrite
    simp only
    rw [if_neg (by rcases hdl with h | h <;> simp [h] <;> omega)]
    rw [hwt]

/-- C9 witness: a concrete oracle delivering datagram [1, 2] from peer 7
and accepting a 1-byte write. -/
theorem udp_single_exchange_witness :
    (((5 : Int) ≤ 0 ∨ (UDPOracle.mk true true (some ([1, 2], 7)) (fun _ _ => some 1)).setReadDeadlineOk = true) →
      (UDPOracle.mk true true (some ([1, 2], 7)) (fun _ _ => some 1)).readFrom = some ([1, 2], 7) →
      udpRead none 5 (UDPOracle.mk true true (some ([1, 2], 7)) (fun _ _ => some 1)) =
        (some 7, some [1, 2], true)) ∧
    (∀ a, udpRead (some a) 5 (UDPOracle.mk true true (some ([1, 2], 7)) (fun _ _ => some 1)) =
      (some a, none, false)) ∧
    (udpWrite none 5 (UDPOracle.mk true true (some ([1, 2], 7)) (fun _ _ => some 1)) [9] =
      (none, false)) ∧
    (((5 : Int) ≤ 0 ∨ (UDPOracle.mk true true (some ([1, 2], 7)) (fun _ _ => some 1)).setWriteDeadlineOk = true) →
      ∀ n, (UDPOracle.mk true true (some ([1, 2], 7)) (fun _ _ => some 1)).writeTo [9] 7 = some n →
      udpWrite (some 7) 5 (UDPOracle.mk true true (some ([1, 2], 7)) (fun _ _ => some 1)) [9] =
        (some (n, 7), true)) :=
  udp_single_exchange (UDPOracle.mk true true (some ([1, 2], 7)) (fun _ _ => some 1))
    5 5 [9] [1, 2] 7

/-! ## TLS client connection counter (internal/network/client.go) -/

/-- Connection-count state of a TLSClient. -/
structure TLSClientState where
  connections : Nat

/-- Embedding of TLSClient.Conn: the deferred increment of the historical
connections counter runs on every call, whether or not the pool acquire
succeeds; the pool result is returned unchanged. -/
def tlsConn (c : TLSClientState) (poolResult : Except Unit Nat) :
    TLSClientState × Except Unit Nat :=
  (⟨c.connections + 1⟩, poolResult)

/-- Embedding of TLSClient.Connections. -/
def tlsConnections (c : TLSClientState) : Nat := c.connections

/-- Counter state after a sequence of Conn calls with the given pool
results. -/
def tlsConnSeq (c : TLSClientState) (results : List (Except Unit Nat)) : TLSClientState :=
  results.foldl (fun acc r => (tlsConn acc r).1) c

theorem tlsConnSeq_count (results : List (Except Unit Nat)) :
    ∀ c, tlsConnections (tlsConnSeq c results) = tlsConnections c + results.length := by
  induction results with
  | nil => intro c; simp [tlsConnSeq, tlsConnections]
  | cons r rest ih =>
    intro c
    show tlsConnections (tlsConnSeq (tlsConn c r).1 rest) = _
    rw [ih]
    simp [tlsConn, tlsConnections]
    omega

/-- C10: every call of the TLS client's Conn increments the historical
connections counter by exactly one, including calls whose pool acquire
errors (the result is passed through unchanged); over any sequence of calls
the counter reported by Connections grows by exactly the number of calls
and is monotonically non-decreasing. -/
theorem tls_connections_counts_attempts (c : TLSClientState) (r : Except Unit Nat)
    (results : List (Except Unit Nat)) :
    tlsConnections (tlsConn c r).1 = tlsConnections c + 1 ∧
    (tlsConn c r).2 = r ∧
    tlsConnections (tlsConnSeq c results) = tlsConnections c + results.length ∧
    tlsConnections c ≤ tlsConnections (tlsConnSeq c results) := by
  refine ⟨rfl, rfl, tlsConnSeq_count results c, ?_⟩
  rw [tlsConnSeq_count results c]
  omega

end Dotproxy
